import Mathlib

/-!
Verification of the GFA256 finite-field ISA extension (zk-aluvm).

This file is a shallow embedding of the repository's Rust sources:
`src/fe.rs`, `src/core/core.rs`, `src/core/microcode.rs`, `src/gfa/instr.rs`,
`src/gfa/bytecode.rs`, `src/gfa/exec.rs`.  256-bit machine integers (`u256`)
are modelled as `Nat` with explicit `% 2 ^ 256` where wrap-around matters;
Rust panics (assertion failures, arithmetic overflow/underflow, division by
zero) are modelled by returning `none`.
-/

namespace ZkAluvm

/-- Status values of the host control registers (aluvm `Status`): `Ok` or `Fail`. -/
inductive Status where
  | Ok
  | Fail
deriving DecidableEq, Repr

/-- The sixteen field registers `E1..E8, EA..EH` (from `src/core/core.rs`). -/
inductive RegE where
  | E1
  | E2
  | E3
  | E4
  | E5
  | E6
  | E7
  | E8
  | EA
  | EB
  | EC
  | ED
  | EE
  | EF
  | EG
  | EH
deriving DecidableEq, Repr

/-- The 4-bit code of a register (`RegE as u8` / `RegE::to_u4`). -/
def RegE.to_u4 : RegE → Nat
  | .E1 => 0
  | .E2 => 1
  | .E3 => 2
  | .E4 => 3
  | .E5 => 4
  | .E6 => 5
  | .E7 => 6
  | .E8 => 7
  | .EA => 8
  | .EB => 9
  | .EC => 10
  | .ED => 11
  | .EE => 12
  | .EF => 13
  | .EG => 14
  | .EH => 15

/-- `impl From<u4> for RegE`: the inverse of `to_u4` on 4-bit codes. -/
def RegE.from_u4 : Nat → RegE
  | 0 => .E1
  | 1 => .E2
  | 2 => .E3
  | 3 => .E4
  | 4 => .E5
  | 5 => .E6
  | 6 => .E7
  | 7 => .E8
  | 8 => .EA
  | 9 => .EB
  | 10 => .EC
  | 11 => .ED
  | 12 => .EE
  | 13 => .EF
  | 14 => .EG
  | _ => .EH

/-- Predefined constants for `putv` (`ConstVal` in `src/gfa/instr.rs`). -/
inductive ConstVal where
  | Val1
  | ValU64Max
  | ValU128Max
  | ValFeMAX
deriving DecidableEq, Repr

/-- 2-bit code of a `ConstVal` (`ConstVal::to_u2`). -/
def ConstVal.to_u2 : ConstVal → Nat
  | .Val1 => 0
  | .ValU64Max => 1
  | .ValU128Max => 2
  | .ValFeMAX => 3

/-- `impl From<u2> for ConstVal`. -/
def ConstVal.from_u2 : Nat → ConstVal
  | 0 => .Val1
  | 1 => .ValU64Max
  | 2 => .ValU128Max
  | _ => .ValFeMAX

/-- `ConstVal::to_fe256`: the field element denoted by the constant;
`none` for `ValFeMAX` (which depends on the field order). -/
def ConstVal.to_fe256 : ConstVal → Option Nat
  | .Val1 => some 1
  | .ValU64Max => some (2 ^ 64 - 1)
  | .ValU128Max => some (2 ^ 128 - 1)
  | .ValFeMAX => none

/-- Bit-width operand of the `fits` instruction (`Bits` in `src/gfa/instr.rs`). -/
inductive Bits where
  | Bits8
  | Bits16
  | Bits24
  | Bits32
  | Bits48
  | Bits64
  | Bits96
  | Bits128
deriving DecidableEq, Repr

/-- 3-bit code of a `Bits` variant (`Bits::to_u3`, the `repr(u8)` value). -/
def Bits.to_u3 : Bits → Nat
  | .Bits8 => 0
  | .Bits16 => 1
  | .Bits24 => 2
  | .Bits32 => 3
  | .Bits48 => 4
  | .Bits64 => 5
  | .Bits96 => 6
  | .Bits128 => 7

/-- `impl From<u3> for Bits` (src/gfa/instr.rs lines 288-302).  The source arm
for code 7 (`x if x == Bits::Bits128.to_u3()`) returns `Bits::Bits96`, so both
codes 6 and 7 decode to `Bits96`; this is embedded as written. -/
def Bits.from_u3 : Nat → Bits
  | 0 => .Bits8
  | 1 => .Bits16
  | 2 => .Bits24
  | 3 => .Bits32
  | 4 => .Bits48
  | 5 => .Bits64
  | 6 => .Bits96
  | _ => .Bits96

/-- `Bits::bit_len`: the number of bits denoted by the variant. -/
def Bits.bit_len : Bits → Nat
  | .Bits8 => 8
  | .Bits16 => 16
  | .Bits24 => 24
  | .Bits32 => 32
  | .Bits48 => 48
  | .Bits64 => 64
  | .Bits96 => 96
  | .Bits128 => 128

/-- `FIELD_ORDER_25519` from `src/core/core.rs`:
`u256::from_inner([0xFFFF_FFFF_FFFF_FFEC, 0xFFFF_FFFF_FFFF_FFFF,
0xFFFF_FFFF_FFFF_FFFF, 0x8FFF_FFFF_FFFF_FFFF])`, little-endian 64-bit limbs. -/
def FIELD_ORDER_25519 : Nat :=
  0xFFFFFFFFFFFFFFEC + 0xFFFFFFFFFFFFFFFF * 2 ^ 64 + 0xFFFFFFFFFFFFFFFF * 2 ^ 128 +
    0x8FFFFFFFFFFFFFFF * 2 ^ 192

/-- `FIELD_ORDER_STARK` from `src/core/core.rs`: limbs `[1, 0, 17, 0x0800_0000_0000_0000]`. -/
def FIELD_ORDER_STARK : Nat := 1 + 17 * 2 ^ 128 + 0x0800000000000000 * 2 ^ 192

/-- `FIELD_ORDER_SECP` from `src/core/core.rs`. -/
def FIELD_ORDER_SECP : Nat :=
  0xFFFFFFFEFFFFFC2E + 0xFFFFFFFFFFFFFFFF * 2 ^ 64 + 0xFFFFFFFFFFFFFFFF * 2 ^ 128 +
    0xFFFFFFFFFFFFFFFF * 2 ^ 192

/-- `GfaConfig` (field order for the core). -/
structure GfaConfig where
  field_order : Nat
deriving DecidableEq, Repr

/-- `impl Default for GfaConfig`: the default field order is `FIELD_ORDER_25519`. -/
def GfaConfig.default : GfaConfig := { field_order := FIELD_ORDER_25519 }

/-- The GFA register file (`GfaCore` in `src/core/core.rs`): the read-only
field order `fq` and sixteen optional field-element slots, indexed by
`RegE::to_u4`.  The slot array `[Option<fe256>; 16]` is modelled as a list. -/
structure GfaCore where
  fq : Nat
  e : List (Option Nat)
deriving DecidableEq, Repr

/-- `CoreExt::with`: construct the core from a config; all slots start empty. -/
def GfaCore.withConfig (config : GfaConfig) : GfaCore :=
  { fq := config.field_order, e := List.replicate 16 none }

/-- `CoreExt::get`: pure read of a register slot. -/
def GfaCore.get (s : GfaCore) (reg : RegE) : Option Nat :=
  s.e.getD reg.to_u4 none

/-- `CoreExt::clr`: set a slot to `None`. -/
def GfaCore.clr (s : GfaCore) (reg : RegE) : GfaCore :=
  { s with e := s.e.set reg.to_u4 none }

/-- `CoreExt::put`: writing `Some(v)` asserts `v < fq` (a panic — modelled as
`none` — on violation); writing `None` clears the slot. -/
def GfaCore.put (s : GfaCore) (reg : RegE) (val : Option Nat) : Option GfaCore :=
  match val with
  | none => some { s with e := s.e.set reg.to_u4 none }
  | some v =>
    if v < s.fq then some { s with e := s.e.set reg.to_u4 (some v) } else none

/-- Modelled from the spec: the host `CoreExt` surface writes a present value
through `put` ("the executor enforces it via `put` when writing the register"),
so `set reg v` is `put reg (Some v)`.  The `set` method itself lives in the
host VM crate, outside this repository. -/
def GfaCore.set (s : GfaCore) (reg : RegE) (v : Nat) : Option GfaCore :=
  s.put reg (some v)

/-- `CoreExt::reset`: clear all sixteen slots, preserving `fq`. -/
def GfaCore.reset (s : GfaCore) : GfaCore :=
  { s with e := List.replicate 16 none }

/-- `GfaCore::test` (microcode): `Ok` iff the slot holds a value. -/
def GfaCore.test (s : GfaCore) (src : RegE) : Status :=
  if (s.get src).isSome then .Ok else .Fail

/-- `GfaCore::fits` (microcode): `none` if the slot is empty, otherwise whether
the value shifted right by `bits.bit_len()` is zero. -/
def GfaCore.fits (s : GfaCore) (src : RegE) (bits : Bits) : Option Bool :=
  (s.get src).map fun a => a >>> bits.bit_len == 0

/-- `GfaCore::mov` (microcode): copy `src` into `dst` (clearing `dst` when
`src` is empty).  The copy of a present value goes through `set`. -/
def GfaCore.mov (s : GfaCore) (dst src : RegE) : Option GfaCore :=
  match s.get src with
  | some val => s.set dst val
  | none => some (s.clr dst)

/-- `GfaCore::eqv` (microcode): `Ok` iff the two slots are equal and present. -/
def GfaCore.eqv (s : GfaCore) (src1 src2 : RegE) : Status :=
  if s.get src1 = s.get src2 ∧ (s.get src1).isSome then .Ok else .Fail

/-- `GfaCore::add_mod` (microcode): 256-bit add with `overflowing_add`; on
overflow the wrapped value is corrected by `+= u256::MAX - order` (a panicking
add, modelled by the `2 ^ 256` bound check), then reduced `% order` (mod-zero
panics).  Returns `Fail` without touching any register when an operand slot is
empty. -/
def GfaCore.add_mod (s : GfaCore) (dst_src src : RegE) : Option (Status × GfaCore) :=
  match s.get dst_src with
  | none => some (.Fail, s)
  | some a =>
    match s.get src with
    | none => some (.Fail, s)
    | some b =>
      let res0 := (a + b) % 2 ^ 256
      let folded : Option Nat :=
        if 2 ^ 256 ≤ a + b then
          if res0 + (2 ^ 256 - 1 - s.fq) < 2 ^ 256 then
            some (res0 + (2 ^ 256 - 1 - s.fq))
          else none
        else some res0
      folded.bind fun res =>
        if s.fq = 0 then none
        else (s.set dst_src (res % s.fq)).map fun s2 => (.Ok, s2)

/-- `GfaCore::mul_mod` (microcode): widen to 512 bits, multiply, reduce
`% order` (mod-zero panics), truncate to the low 256 bits, reduce `% order`
again, and store.  Returns `Fail` without mutation when an operand is empty. -/
def GfaCore.mul_mod (s : GfaCore) (dst_src src : RegE) : Option (Status × GfaCore) :=
  match s.get dst_src with
  | none => some (.Fail, s)
  | some a =>
    match s.get src with
    | none => some (.Fail, s)
    | some b =>
      if s.fq = 0 then none
      else (s.set dst_src (a * b % s.fq % 2 ^ 256 % s.fq)).map fun s2 => (.Ok, s2)

/-- `GfaCore::neg_mod` (microcode): `order - src` (a panicking u256
subtraction, modelled by the underflow check), stored into `dst_src` through
`set`.  Note the source applies no final `% order`.  Returns `Fail` without
mutation when `src` is empty. -/
def GfaCore.neg_mod (s : GfaCore) (dst_src src : RegE) : Option (Status × GfaCore) :=
  match s.get src with
  | none => some (.Fail, s)
  | some a =>
    if s.fq < a then none
    else (s.set dst_src (s.fq - a)).map fun s2 => (.Ok, s2)

example : (GfaCore.withConfig GfaConfig.default).get RegE.E1 = none := by decide
example :
    ((GfaCore.withConfig GfaConfig.default).set RegE.E1 5).map (fun s => s.get RegE.E1) =
      some (some 5) := by decide

/-- The eleven field instructions (`FieldInstr` in `src/gfa/instr.rs`).
`PutD`'s immediate (`fe256`) is a 256-bit value. -/
inductive FieldInstr where
  | Test (src : RegE)
  | Clr (dst : RegE)
  | PutD (dst : RegE) (data : Nat)
  | PutZ (dst : RegE)
  | PutV (dst : RegE) (val : ConstVal)
  | Fits (src : RegE) (bits : Bits)
  | Mov (dst src : RegE)
  | Eq (src1 src2 : RegE)
  | Neg (dst src : RegE)
  | Add (dst_src src : RegE)
  | Mul (dst_src src : RegE)
deriving DecidableEq, Repr

/-- Opcode class bytes (`FieldInstr::START = 64`, `SET`, `MOV`..`MUL`). -/
def FieldInstr.START : Nat := 64

/-- The shared `SET` opcode byte (0x40). -/
def FieldInstr.SET : Nat := FieldInstr.START + 0

/-- The `MOV` opcode byte (0x41). -/
def FieldInstr.MOV : Nat := FieldInstr.START + 1

/-- The `EQ` opcode byte (0x42). -/
def FieldInstr.EQ : Nat := FieldInstr.START + 2

/-- The `NEG` opcode byte (0x43). -/
def FieldInstr.NEG : Nat := FieldInstr.START + 3

/-- The `ADD` opcode byte (0x44). -/
def FieldInstr.ADD : Nat := FieldInstr.START + 4

/-- The `MUL` opcode byte (0x45). -/
def FieldInstr.MUL : Nat := FieldInstr.START + 5

/-- SET-class discriminator for `test` (low nibble `0b0000`). -/
def SUB_TEST : Nat := 0

/-- SET-class discriminator for `clr` (`0b0001`). -/
def SUB_CLR : Nat := 1

/-- SET-class discriminator for `putd` (`0b0010`). -/
def SUB_PUTD : Nat := 2

/-- SET-class discriminator for `putz` (`0b0011`). -/
def SUB_PUTZ : Nat := 3

/-- Mask selecting the `putv` discriminator bits (`0b1100`). -/
def MASK_PUTV : Nat := 12

/-- `putv` discriminator pattern (`0b0100`). -/
def TEST_PUTV : Nat := 4

/-- Mask selecting the `fits` discriminator bit (`0b1000`). -/
def MASK_FITS : Nat := 8

/-- `fits` discriminator pattern (`0b1000`). -/
def TEST_FITS : Nat := 8

/-- `Bytecode::opcode_byte` for field instructions. -/
def FieldInstr.opcode_byte : FieldInstr → Nat
  | .Test _ | .Clr _ | .PutD _ _ | .PutZ _ | .PutV _ _ | .Fits _ _ => FieldInstr.SET
  | .Mov _ _ => FieldInstr.MOV
  | .Eq _ _ => FieldInstr.EQ
  | .Neg _ _ => FieldInstr.NEG
  | .Add _ _ => FieldInstr.ADD
  | .Mul _ _ => FieldInstr.MUL

/-- `Bytecode::code_byte_len` for field instructions: the per-variant operand
length (`3` for `PutD`, `1` otherwise) plus one opcode byte. -/
def FieldInstr.code_byte_len (i : FieldInstr) : Nat :=
  let arg_len :=
    match i with
    | .Test _ => 1
    | .Clr _ => 1
    | .PutD _ _ => 3
    | .PutZ _ => 1
    | .PutV _ _ => 1
    | .Fits _ _ => 1
    | .Mov _ _ => 1
    | .Eq _ _ => 1
    | .Neg _ _ => 1
    | .Add _ _ => 1
    | .Mul _ _ => 1
  arg_len + 1

/-- `Instruction::ext_data_bytes`: extra data-segment bytes consumed
(`32` for `PutD`, `0` otherwise; from `src/gfa/exec.rs`). -/
def FieldInstr.ext_data_bytes : FieldInstr → Nat
  | .PutD _ _ => 32
  | .Test _ | .Clr _ | .PutZ _ | .PutV _ _ | .Fits _ _
  | .Mov _ _ | .Eq _ _ | .Neg _ _ | .Add _ _ | .Mul _ _ => 0

/-- Recognizer for the `PutD` variant. -/
def FieldInstr.isPutD : FieldInstr → Bool
  | .PutD _ _ => true
  | _ => false

/-- Little-endian byte decomposition of a value (`u256::to_le_bytes`),
`k` bytes long. -/
def toLeBytes : Nat → Nat → List Nat
  | 0, _ => []
  | k + 1, n => n % 256 :: toLeBytes k (n / 256)

/-- Recompose a little-endian byte list into a value (`u256::from_le_bytes`). -/
def fromLeBytes : List Nat → Nat :=
  fun l => l.foldr (fun b acc => b + 256 * acc) 0

/-- `Bytecode::encode_operands`: the nibble stream written to the code segment
and the byte stream written for the fixed 32-byte `PutD` immediate. -/
def FieldInstr.encode_operands : FieldInstr → List Nat × List Nat
  | .Test src => ([SUB_TEST, src.to_u4], [])
  | .Clr dst => ([SUB_CLR, dst.to_u4], [])
  | .PutD dst data => ([SUB_PUTD, dst.to_u4], toLeBytes 32 data)
  | .PutZ dst => ([SUB_PUTZ, dst.to_u4], [])
  | .PutV dst val => ([TEST_PUTV ||| val.to_u2, dst.to_u4], [])
  | .Fits src bits => ([TEST_FITS ||| bits.to_u3, src.to_u4], [])
  | .Mov dst src => ([dst.to_u4, src.to_u4], [])
  | .Eq src1 src2 => ([src1.to_u4, src2.to_u4], [])
  | .Neg dst src => ([dst.to_u4, src.to_u4], [])
  | .Add dst_src src => ([dst_src.to_u4, src.to_u4], [])
  | .Mul dst_src src => ([dst_src.to_u4, src.to_u4], [])

/-- `Bytecode::decode_operands`: reads 4-bit items from the nibble stream
(and, for `PutD`, a fixed 32-byte block from the data stream) and rebuilds the
instruction; `none` models a truncated stream (`CodeEofError`) or an
unreachable opcode. -/
def FieldInstr.decode_operands (opcode : Nat) (nibbles : List Nat) (data : List Nat) :
    Option FieldInstr :=
  if opcode = FieldInstr.SET then
    match nibbles with
    | [] => none
    | sub :: rest =>
      if sub = SUB_TEST then
        match rest with
        | src :: _ => some (.Test (RegE.from_u4 src))
        | [] => none
      else if sub = SUB_CLR then
        match rest with
        | dst :: _ => some (.Clr (RegE.from_u4 dst))
        | [] => none
      else if sub = SUB_PUTD then
        match rest with
        | dst :: _ =>
          if 32 ≤ data.length then
            some (.PutD (RegE.from_u4 dst) (fromLeBytes (data.take 32)))
          else none
        | [] => none
      else if sub = SUB_PUTZ then
        match rest with
        | dst :: _ => some (.PutZ (RegE.from_u4 dst))
        | [] => none
      else if sub &&& MASK_PUTV = TEST_PUTV then
        match rest with
        | dst :: _ => some (.PutV (RegE.from_u4 dst) (ConstVal.from_u2 (sub &&& 0xF3)))
        | [] => none
      else if sub &&& MASK_FITS = TEST_FITS then
        match rest with
        | src :: _ => some (.Fits (RegE.from_u4 src) (Bits.from_u3 (sub &&& 0xF7)))
        | [] => none
      else none
  else if opcode = FieldInstr.MOV then
    match nibbles with
    | dst :: src :: _ => some (.Mov (RegE.from_u4 dst) (RegE.from_u4 src))
    | _ => none
  else if opcode = FieldInstr.EQ then
    match nibbles with
    | src1 :: src2 :: _ => some (.Eq (RegE.from_u4 src1) (RegE.from_u4 src2))
    | _ => none
  else if opcode = FieldInstr.NEG then
    match nibbles with
    | dst :: src :: _ => some (.Neg (RegE.from_u4 dst) (RegE.from_u4 src))
    | _ => none
  else if opcode = FieldInstr.ADD then
    match nibbles with
    | dst_src :: src :: _ => some (.Add (RegE.from_u4 dst_src) (RegE.from_u4 src))
    | _ => none
  else if opcode = FieldInstr.MUL then
    match nibbles with
    | dst_src :: src :: _ => some (.Mul (RegE.from_u4 dst_src) (RegE.from_u4 src))
    | _ => none
  else none

/-- Encode an instruction and decode it back (the codec round trip of
`encode_operands` / `decode_operands` at the instruction's opcode byte). -/
def FieldInstr.roundtrip (i : FieldInstr) : Option FieldInstr :=
  FieldInstr.decode_operands i.opcode_byte i.encode_operands.1 i.encode_operands.2

example : FieldInstr.roundtrip (.Mov .EA .E3) = some (.Mov .EA .E3) := by decide
example : FieldInstr.roundtrip (.Fits .E1 .Bits64) = some (.Fits .E1 .Bits64) := by decide
example : FieldInstr.roundtrip (.Fits .E1 .Bits128) = some (.Fits .E1 .Bits96) := by decide
example : FieldInstr.roundtrip (.PutD .E2 (2 ^ 255 + 77)) = some (.PutD .E2 (2 ^ 255 + 77)) := by
  decide

/-- The execution step returned to the host scheduler by `FieldInstr::exec`
(only the `Next` and `Fail` variants of the host's `ExecStep` arise). -/
inductive ExecStep where
  | Next
  | Fail
deriving DecidableEq, Repr

/-- The host core as seen by the field ISA: control registers `co` and `ck`
plus the GFA register file (`Core<Id, GfaCore>`; the `CO`/`CK` surface is
modelled from the spec's host contract). -/
structure Core where
  co : Status
  ck : Status
  cx : GfaCore
deriving DecidableEq, Repr

/-- `Core::set_co`: overwrite the last-operation outcome register. -/
def Core.set_co (c : Core) (st : Status) : Core :=
  { c with co := st }

/-- The per-arm body of `FieldInstr::exec` (src/gfa/exec.rs lines 134-184):
returns the updated core plus the arm's `Status` result; `none` models a
panic inside the arm. -/
def FieldInstr.execArm : FieldInstr → Core → Option (Core × Status)
  | .Test src, core => some (core.set_co (core.cx.test src), .Ok)
  | .Clr dst, core => some ({ core with cx := core.cx.clr dst }, .Ok)
  | .PutD dst data, core =>
    (core.cx.set dst data).map fun cx => ({ core with cx := cx }, .Ok)
  | .PutZ dst, core =>
    (core.cx.set dst 0).map fun cx => ({ core with cx := cx }, .Ok)
  | .PutV dst val, core =>
    match val.to_fe256 with
    | some v => (core.cx.set dst v).map fun cx => ({ core with cx := cx }, .Ok)
    | none =>
      if core.cx.fq = 0 then none
      else (core.cx.set dst (core.cx.fq - 1)).map fun cx => ({ core with cx := cx }, .Ok)
  | .Mov dst src, core =>
    (core.cx.mov dst src).map fun cx => ({ core with cx := cx }, .Ok)
  | .Eq src1 src2, core => some (core.set_co (core.cx.eqv src1 src2), .Ok)
  | .Fits src bits, core =>
    match core.cx.fits src bits with
    | none => some (core, .Fail)
    | some true => some (core.set_co .Ok, .Ok)
    | some false => some (core.set_co .Fail, .Ok)
  | .Neg dst src, core =>
    (core.cx.neg_mod dst src).map fun p => ({ core with cx := p.2 }, p.1)
  | .Add dst_src src, core =>
    (core.cx.add_mod dst_src src).map fun p => ({ core with cx := p.2 }, p.1)
  | .Mul dst_src src, core =>
    (core.cx.mul_mod dst_src src).map fun p => ({ core with cx := p.2 }, p.1)

/-- `FieldInstr::exec`: run the arm, then map the arm's status to the step
handed to the host (`Next` on `Ok`, a fail step otherwise). -/
def FieldInstr.exec (i : FieldInstr) (core : Core) : Option (Core × ExecStep) :=
  (i.execArm core).map fun p => (p.1, if p.2 = Status.Ok then ExecStep.Next else ExecStep.Fail)

example :
    FieldInstr.exec (.PutZ .E4) { co := .Ok, ck := .Ok, cx := GfaCore.withConfig GfaConfig.default }
      = some ({ co := .Ok, ck := .Ok,
                cx := { fq := FIELD_ORDER_25519,
                        e := (List.replicate 16 (none : Option Nat)).set 3 (some 0) } },
              .Next) := by decide

/-- Errors parsing field elements (`ParseFeError` in `src/fe.rs`): a missing
`.fe` suffix, or a hex error (invalid digit, or byte length over 32).  The
type has no range/overflow variant. -/
inductive ParseFeError where
  | noSuffix (s : List Char)
  | value
deriving DecidableEq, Repr

instance {ε α : Type} [DecidableEq ε] [DecidableEq α] : DecidableEq (Except ε α) := fun x y =>
  match x, y with
  | .ok a, .ok b =>
    if h : a = b then isTrue (by rw [h]) else isFalse (fun hc => h (Except.ok.inj hc))
  | .error a, .error b =>
    if h : a = b then isTrue (by rw [h]) else isFalse (fun hc => h (Except.error.inj hc))
  | .ok _, .error _ => isFalse (fun hc => Except.noConfusion hc)
  | .error _, .ok _ => isFalse (fun hc => Except.noConfusion hc)

/-- Numeric value of one hex digit (both cases accepted), `none` otherwise. -/
def hexDigitVal : Char → Option Nat := fun c =>
  if '0' ≤ c ∧ c ≤ '9' then some (c.toNat - '0'.toNat)
  else if 'a' ≤ c ∧ c ≤ 'f' then some (c.toNat - 'a'.toNat + 10)
  else if 'A' ≤ c ∧ c ≤ 'F' then some (c.toNat - 'A'.toNat + 10)
  else none

/-- Hex decoding of an even-length digit string into bytes (`FromHex`);
`none` on an odd length or an invalid digit. -/
def hexToBytes : List Char → Option (List Nat)
  | [] => some []
  | [_] => none
  | c1 :: c2 :: rest => do
    let h ← hexDigitVal c1
    let l ← hexDigitVal c2
    let tail ← hexToBytes rest
    pure ((h * 16 + l) :: tail)

/-- Strip a trailing `".fe"` from a character string (`str::strip_suffix`). -/
def stripSuffixFe (s : List Char) : Option (List Char) :=
  if 3 ≤ s.length ∧ s.drop (s.length - 3) = ['.', 'f', 'e'] then
    some (s.take (s.length - 3))
  else none

/-- Big-endian byte recomposition (`u256::from_be_bytes`). -/
def beBytesToNat (l : List Nat) : Nat :=
  l.foldl (fun acc b => acc * 256 + b) 0

/-- `impl FromStr for fe256` (src/fe.rs lines 127-144): strip the `.fe`
suffix, zero-prefix odd-length hex, decode the hex into bytes, reject more
than 32 bytes, left-pad with zeros to 32 bytes and read big-endian.  No range
bound on the resulting value is checked. -/
def fe256.from_str (s : List Char) : Except ParseFeError Nat :=
  match stripSuffixFe s with
  | none => .error (.noSuffix s)
  | some hexPart =>
    let padded := if hexPart.length % 2 = 1 then '0' :: hexPart else hexPart
    match hexToBytes padded with
    | none => .error .value
    | some bytes =>
      if 32 < bytes.length then .error .value
      else .ok (beBytesToNat (List.replicate (32 - bytes.length) 0 ++ bytes))

/-- Upper-case hex digit for a value below 16 (the `{:X}` formatting used by
the `fe256` display). -/
def hexCharUpper (n : Nat) : Char :=
  if n < 10 then Char.ofNat ('0'.toNat + n) else Char.ofNat ('A'.toNat + n - 10)

/-- Two upper-case hex digits per byte, in order (the zero-padded alternate
textual form of a byte string). -/
def hexOfBytes : List Nat → List Char
  | [] => []
  | b :: rest => hexCharUpper (b / 16) :: hexCharUpper (b % 16) :: hexOfBytes rest

example : fe256.from_str ('3' :: '4' :: '5' :: '.' :: 'f' :: 'e' :: []) = .ok 0x345 := by decide
example : fe256.from_str ('3' :: '4' :: '5' :: []) =
    .error (.noSuffix ('3' :: '4' :: '5' :: [])) := by decide

/-- The state-mutating operations on the register file: the `CoreExt` surface
(`put`, `clr`, `reset`), the microcode `mov`, the put-style instruction
writes from the executor (`putd`, `putz`, `putv`), and the three arithmetic
microcode operations. -/
inductive GfaOp where
  | put (reg : RegE) (val : Option Nat)
  | clr (reg : RegE)
  | reset
  | mov (dst src : RegE)
  | putD (dst : RegE) (data : Nat)
  | putZ (dst : RegE)
  | putV (dst : RegE) (val : ConstVal)
  | negMod (dst_src src : RegE)
  | addMod (dst_src src : RegE)
  | mulMod (dst_src src : RegE)
deriving DecidableEq, Repr

/-- Apply a state-mutating operation to the register file; `none` models a
panic (no post-state). -/
def applyGfaOp : GfaOp → GfaCore → Option GfaCore
  | .put r v, s => s.put r v
  | .clr r, s => some (s.clr r)
  | .reset, s => some s.reset
  | .mov dst src, s => s.mov dst src
  | .putD dst data, s => s.set dst data
  | .putZ dst, s => s.set dst 0
  | .putV dst val, s =>
    match val.to_fe256 with
    | some v => s.set dst v
    | none => if s.fq = 0 then none else s.set dst (s.fq - 1)
  | .negMod d sr, s => (s.neg_mod d sr).map Prod.snd
  | .addMod d sr, s => (s.add_mod d sr).map Prod.snd
  | .mulMod d sr, s => (s.mul_mod d sr).map Prod.snd

/-- The register-file invariant: every occupied slot holds a value strictly
below the field order. -/
def Inv (s : GfaCore) : Prop :=
  ∀ x ∈ s.e, ∀ v, x = some v → v < s.fq

lemma inv_setSlot {s : GfaCore} {i : Nat} {o : Option Nat} (h : Inv s)
    (ho : ∀ v, o = some v → v < s.fq) : Inv { s with e := s.e.set i o } := by
  intro x hx v hv
  rcases List.mem_or_eq_of_mem_set hx with hmem | rfl
  · exact h x hmem v hv
  · exact ho v hv

lemma inv_clr {s : GfaCore} {r : RegE} (h : Inv s) : Inv (s.clr r) :=
  inv_setSlot h (fun v hv => by cases hv)

lemma inv_put {s s' : GfaCore} {r : RegE} {val : Option Nat} (h : Inv s)
    (hp : s.put r val = some s') : Inv s' := by
  cases val with
  | none =>
    simp only [GfaCore.put, Option.some.injEq] at hp
    exact hp ▸ inv_clr h
  | some v =>
    simp only [GfaCore.put] at hp
    split at hp
    · cases hp
      exact inv_setSlot h (fun w hw => by cases hw; assumption)
    · cases hp

lemma inv_set {s s' : GfaCore} {r : RegE} {v : Nat} (h : Inv s)
    (hp : s.set r v = some s') : Inv s' :=
  inv_put h hp

lemma inv_get_lt {s : GfaCore} {r : RegE} {v : Nat} (h : Inv s)
    (hg : s.get r = some v) : v < s.fq := by
  unfold GfaCore.get at hg
  rcases Nat.lt_or_ge r.to_u4 s.e.length with hl | hl
  · rw [List.getD_eq_getElem?_getD, List.getElem?_eq_getElem hl] at hg
    have hm : s.e[r.to_u4] ∈ s.e := List.getElem_mem hl
    exact h _ hm v hg
  · rw [List.getD_eq_getElem?_getD, List.getElem?_eq_none hl] at hg
    cases hg

lemma inv_mov {s s' : GfaCore} {dst src : RegE} (h : Inv s)
    (hp : s.mov dst src = some s') : Inv s' := by
  unfold GfaCore.mov at hp
  split at hp
  · exact inv_set h hp
  · cases hp
    exact inv_clr h

lemma inv_neg_mod {s s' : GfaCore} {d sr : RegE} {st : Status} (h : Inv s)
    (hp : s.neg_mod d sr = some (st, s')) : Inv s' := by
  unfold GfaCore.neg_mod at hp
  split at hp
  · cases hp; exact h
  · split at hp
    · cases hp
    · rw [Option.map_eq_some'] at hp
      obtain ⟨s2, hs2, he⟩ := hp
      cases he
      exact inv_set h hs2

lemma inv_add_mod {s s' : GfaCore} {d sr : RegE} {st : Status} (h : Inv s)
    (hp : s.add_mod d sr = some (st, s')) : Inv s' := by
  unfold GfaCore.add_mod at hp
  split at hp
  · cases hp; exact h
  · split at hp
    · cases hp; exact h
    · simp only [Option.bind_eq_some] at hp
      obtain ⟨res, _, hp⟩ := hp
      split at hp
      · cases hp
      · rw [Option.map_eq_some'] at hp
        obtain ⟨s2, hs2, he⟩ := hp
        cases he
        exact inv_set h hs2

lemma inv_mul_mod {s s' : GfaCore} {d sr : RegE} {st : Status} (h : Inv s)
    (hp : s.mul_mod d sr = some (st, s')) : Inv s' := by
  unfold GfaCore.mul_mod at hp
  split at hp
  · cases hp; exact h
  · split at hp
    · cases hp; exact h
    · split at hp
      · cases hp
      · rw [Option.map_eq_some'] at hp
        obtain ⟨s2, hs2, he⟩ := hp
        cases he
        exact inv_set h hs2

lemma inv_apply {op : GfaOp} {s s' : GfaCore} (h : Inv s)
    (hp : applyGfaOp op s = some s') : Inv s' := by
  cases op with
  | put r v => exact inv_put h hp
  | clr r => cases hp; exact inv_clr h
  | reset =>
    cases hp
    intro x hx v hv
    rw [List.eq_of_mem_replicate hx] at hv
    cases hv
  | mov dst src => exact inv_mov h hp
  | putD dst data => exact inv_set h hp
  | putZ dst => exact inv_set h hp
  | putV dst val =>
    simp only [applyGfaOp] at hp
    split at hp
    · exact inv_set h hp
    · split at hp
      · cases hp
      · exact inv_set h hp
  | negMod d sr =>
    simp only [applyGfaOp, Option.map_eq_some'] at hp
    obtain ⟨⟨st, s2⟩, hs2, he⟩ := hp
    cases he
    exact inv_neg_mod h hs2
  | addMod d sr =>
    simp only [applyGfaOp, Option.map_eq_some'] at hp
    obtain ⟨⟨st, s2⟩, hs2, he⟩ := hp
    cases he
    exact inv_add_mod h hs2
  | mulMod d sr =>
    simp only [applyGfaOp, Option.map_eq_some'] at hp
    obtain ⟨⟨st, s2⟩, hs2, he⟩ := hp
    cases he
    exact inv_mul_mod h hs2

lemma inv_init (cfg : GfaConfig) : Inv (GfaCore.withConfig cfg) := by
  intro x hx v hv
  rw [List.eq_of_mem_replicate hx] at hv
  cases hv

/-- C3: The constant `FIELD_ORDER_25519` (also the default order installed by
`GfaConfig::default`) does NOT equal `2^255 - 19`; its actual value is
`9 * 2^252 - 20` (`0x8FFF...FFEC`): the top limb is `0x8FFF_FFFF_FFFF_FFFF`
instead of `0x7FFF_FFFF_FFFF_FFFF` and the low limb ends in `EC` instead of
`ED`.  The default config does use this constant. -/
theorem field_order_25519_constant_is_wrong :
    FIELD_ORDER_25519 = 9 * 2 ^ 252 - 20 ∧
    FIELD_ORDER_25519 ≠ 2 ^ 255 - 19 ∧
    GfaConfig.default.field_order = FIELD_ORDER_25519 := by
  refine ⟨by decide, by decide, rfl⟩

/-- C2: The codec round trip is broken at `Bits128`: encoding
`Fits {src: E1, bits: Bits128}` and decoding the result yields
`Fits {src: E1, bits: Bits96}` (the `From<u3> for Bits` arm for code 7
returns `Bits96`), which differs from the encoded instruction. -/
theorem bits128_roundtrip_broken :
    FieldInstr.roundtrip (.Fits .E1 .Bits128) = some (.Fits .E1 .Bits96) ∧
    FieldInstr.Fits .E1 .Bits96 ≠ FieldInstr.Fits .E1 .Bits128 := by
  exact ⟨by decide, by decide⟩

/-- C6 (counterexample): `code_byte_len` of a `PutD` instruction is not 2
(it is 4: opcode byte + operand nibbles byte + two data-offset bytes). -/
theorem putd_code_byte_len_ne_two :
    (FieldInstr.PutD .E1 0).code_byte_len ≠ 2 := by decide

/-- C6 (amended): every field instruction has `code_byte_len = 2` except
`PutD`, whose `code_byte_len` is 4; `ext_data_bytes` is 32 for `PutD` and 0
for every other instruction, so `PutD` is the only instruction with a nonzero
data-segment footprint. -/
theorem code_byte_len_and_ext_data_bytes :
    ∀ i : FieldInstr,
      i.code_byte_len = (if i.isPutD then 4 else 2) ∧
      i.ext_data_bytes = (if i.isPutD then 32 else 0) := by
  intro i
  cases i <;>
    simp [FieldInstr.code_byte_len, FieldInstr.ext_data_bytes, FieldInstr.isPutD]

/-- C1: at the 256-bit overflow of `add_mod` the fold-in correction is off by
one.  With the in-code field order `q = FIELD_ORDER_25519` and both operands
`q - 1` (each `< q`), `add_mod` returns `Ok` but stores `q - 3`, while the
mathematical result `(a + b) mod q` is `q - 2`.  (The code adds
`u256::MAX - q`, i.e. `2^256 - 1 - q`, where restoring the sum modulo `q`
requires `2^256 - q`.) -/
theorem add_mod_overflow_foldin_off_by_one :
    (({ fq := FIELD_ORDER_25519,
        e := [some (FIELD_ORDER_25519 - 1), some (FIELD_ORDER_25519 - 1),
              none, none, none, none, none, none,
              none, none, none, none, none, none, none, none] } : GfaCore).add_mod
          .E1 .E2).map (fun p => (p.1, p.2.get .E1)) =
      some (Status.Ok, some (FIELD_ORDER_25519 - 3)) ∧
    ((FIELD_ORDER_25519 - 1) + (FIELD_ORDER_25519 - 1)) % FIELD_ORDER_25519 =
      FIELD_ORDER_25519 - 2 ∧
    FIELD_ORDER_25519 - 3 ≠ FIELD_ORDER_25519 - 2 := by
  refine ⟨by decide, by decide, by decide⟩

/-- C4: `neg_mod` applies no final `% q`: negating the field element 0 (a
value accepted by every register) computes `q - 0 = q` and the `put`
precondition `v < q` fails, so the operation panics instead of storing 0.
Here `E1` holds 0 and `neg_mod(E2, E1)` with the default order has no result
(models the Rust panic). -/
theorem neg_mod_of_zero_panics :
    ({ fq := FIELD_ORDER_25519,
       e := [some 0, none, none, none, none, none, none, none,
             none, none, none, none, none, none, none, none] } : GfaCore).neg_mod
        .E2 .E1 = none := by decide

/-- C5: executing `Fits` on an empty source register does not set `CO` (or
`CK`) to `Fail`: the executor returns the core unchanged (CO still `Ok`)
together with a fail step, contradicting the instruction's documented
behaviour of setting both `CO` and `CK` to `Fail` without a fail step. -/
theorem fits_on_empty_register_behavior :
    FieldInstr.exec (.Fits .E1 .Bits8)
        { co := .Ok, ck := .Ok, cx := GfaCore.withConfig GfaConfig.default } =
      some ({ co := .Ok, ck := .Ok, cx := GfaCore.withConfig GfaConfig.default },
            .Fail) := by decide

/-- C8: `eqv` returns `Ok` exactly when both registers hold the same present
value: both empty gives `Fail`, exactly one empty gives `Fail`, and two
present values give `Ok` iff they are equal. -/
theorem eqv_ok_iff_both_present_and_equal :
    ∀ (s : GfaCore) (src1 src2 : RegE),
      s.eqv src1 src2 = .Ok ↔ ∃ x, s.get src1 = some x ∧ s.get src2 = some x := by
  intro s src1 src2
  unfold GfaCore.eqv
  split
  · rename_i h
    obtain ⟨heq, hsome⟩ := h
    rw [Option.isSome_iff_exists] at hsome
    obtain ⟨x, hx⟩ := hsome
    simp only [true_iff]
    exact ⟨x, hx, heq ▸ hx⟩
  · rename_i h
    constructor
    · intro hc
      cases hc
    · rintro ⟨x, h1, h2⟩
      exact absurd ⟨h1.trans h2.symm, h1 ▸ rfl⟩ h

/-- C10: each arithmetic microcode operation invoked with a missing operand
returns `Fail` and leaves the register file unchanged: `add_mod` and
`mul_mod` when either `dst_src` or `src` is empty, `neg_mod` when its source
operand is empty. -/
theorem arith_missing_operand_fails_unchanged :
    ∀ (s : GfaCore) (d r : RegE),
      (s.get d = none ∨ s.get r = none → s.add_mod d r = some (.Fail, s)) ∧
      (s.get d = none ∨ s.get r = none → s.mul_mod d r = some (.Fail, s)) ∧
      (s.get r = none → s.neg_mod d r = some (.Fail, s)) := by
  intro s d r
  refine ⟨?_, ?_, ?_⟩
  · rintro (h | h)
    · simp [GfaCore.add_mod, h]
    · cases hd : s.get d with
      | none => simp [GfaCore.add_mod, hd]
      | some a => simp [GfaCore.add_mod, hd, h]
  · rintro (h | h)
    · simp [GfaCore.mul_mod, h]
    · cases hd : s.get d with
      | none => simp [GfaCore.mul_mod, hd]
      | some a => simp [GfaCore.mul_mod, hd, h]
  · intro h
    simp [GfaCore.neg_mod, h]

/-- C10 (witness): on the freshly constructed core (all registers empty) the
three operations each return `Fail` with the state unchanged. -/
theorem arith_missing_operand_fails_unchanged_witness :
    (GfaCore.withConfig GfaConfig.default).add_mod .E1 .E2 =
        some (.Fail, GfaCore.withConfig GfaConfig.default) ∧
    (GfaCore.withConfig GfaConfig.default).mul_mod .E3 .E4 =
        some (.Fail, GfaCore.withConfig GfaConfig.default) ∧
    (GfaCore.withConfig GfaConfig.default).neg_mod .EF .EF =
        some (.Fail, GfaCore.withConfig GfaConfig.default) :=
  ⟨(arith_missing_operand_fails_unchanged _ _ _).1 (Or.inl (by decide)),
   (arith_missing_operand_fails_unchanged _ _ _).2.1 (Or.inl (by decide)),
   (arith_missing_operand_fails_unchanged _ _ _).2.2 (by decide)⟩

/-- C9: the register-file invariant — every occupied slot holds a value
strictly below the field order — holds for the freshly constructed core (all
slots empty) and is preserved by every state-mutating operation (`put`,
`clr`, `reset`, `mov`, the put-style instruction writes, `neg_mod`,
`add_mod`, `mul_mod`): whenever an operation completes (does not panic), the
resulting register file again satisfies the invariant, so no operation ever
installs a value `≥ q`. -/
theorem register_file_invariant_preserved :
    (∀ cfg : GfaConfig, Inv (GfaCore.withConfig cfg)) ∧
    (∀ (op : GfaOp) (s s' : GfaCore), Inv s → applyGfaOp op s = some s' → Inv s') :=
  ⟨inv_init, fun _ _ _ h hp => inv_apply h hp⟩

/-- C9 (witness): instantiating the preservation half at `putz E1` applied to
the default-constructed core yields the invariant for the resulting file. -/
theorem register_file_invariant_preserved_witness :
    Inv { fq := FIELD_ORDER_25519,
          e := (List.replicate 16 (none : Option Nat)).set 0 (some 0) } :=
  register_file_invariant_preserved.2 (.putZ .E1) (GfaCore.withConfig GfaConfig.default)
    _ (register_file_invariant_preserved.1 GfaConfig.default) (by decide)

lemma hexDigitVal_hexCharUpper : ∀ n, n < 16 → hexDigitVal (hexCharUpper n) = some n := by
  decide

lemma hexOfBytes_length : ∀ l : List Nat, (hexOfBytes l).length = 2 * l.length := by
  intro l
  induction l with
  | nil => rfl
  | cons b rest ih =>
    simp only [hexOfBytes, List.length_cons, ih]
    omega

lemma hexToBytes_hexOfBytes :
    ∀ l : List Nat, (∀ b ∈ l, b < 256) → hexToBytes (hexOfBytes l) = some l := by
  intro l
  induction l with
  | nil => intro _; rfl
  | cons b rest ih =>
    intro hb
    have hb0 : b < 256 := hb b (List.mem_cons_self _ _)
    have hdiv : b / 16 < 16 := by omega
    have hmod : b % 16 < 16 := by omega
    show hexToBytes (hexCharUpper (b / 16) :: hexCharUpper (b % 16) :: hexOfBytes rest) =
      some (b :: rest)
    have hrest : ∀ x ∈ rest, x < 256 := fun x hx => hb x (List.mem_cons_of_mem _ hx)
    simp only [hexToBytes, hexDigitVal_hexCharUpper _ hdiv, hexDigitVal_hexCharUpper _ hmod,
      ih hrest, Option.bind_eq_bind, Option.some_bind, Option.pure_def, Option.some.injEq,
      List.cons.injEq]
    exact ⟨by omega, trivial⟩

lemma stripSuffixFe_append (l : List Char) :
    stripSuffixFe (l ++ ['.', 'f', 'e']) = some l := by
  unfold stripSuffixFe
  have hlen : (l ++ ['.', 'f', 'e']).length = l.length + 3 := by simp
  rw [hlen, Nat.add_sub_cancel]
  have hc : 3 ≤ l.length + 3 ∧ (l ++ ['.', 'f', 'e']).drop l.length = ['.', 'f', 'e'] :=
    ⟨by omega, List.drop_left l _⟩
  rw [if_pos hc, List.take_left]

/-- C7 (counterexample): `fe256::from_str` accepts
`"FFF...F.fe"` (64 `F` digits), whose parsed value `2^256 - 1` has all of its
top 5 bits set (it is `≥ 2^251`), returning it as a success instead of a
range error. -/
theorem from_str_accepts_value_above_2_pow_251 :
    fe256.from_str (hexOfBytes (List.replicate 32 255) ++ ['.', 'f', 'e']) =
      .ok (2 ^ 256 - 1) ∧ 2 ^ 251 ≤ 2 ^ 256 - 1 := by
  exact ⟨by decide, by decide⟩

/-- C7 (amended): `fe256::from_str` performs no range check at all: every
64-hex-digit string (any 32-byte value, including every value with the top 5
bits set) followed by `.fe` parses successfully to its big-endian value; the
only errors the parser can produce are a missing `.fe` suffix and invalid or
over-long hex. -/
theorem from_str_accepts_any_32_byte_value :
    ∀ bytes : List Nat, bytes.length = 32 → (∀ b ∈ bytes, b < 256) →
      fe256.from_str (hexOfBytes bytes ++ ['.', 'f', 'e']) =
        .ok (beBytesToNat bytes) := by
  intro bytes h32 hlt
  simp only [fe256.from_str, stripSuffixFe_append, hexOfBytes_length, h32]
  norm_num
  rw [hexToBytes_hexOfBytes bytes hlt]
  simp [h32]

/-- C7 (witness): the amended theorem applied to the 32-byte value
`0xFF00...00` (`= 255 * 2^248 ≥ 2^251`). -/
theorem from_str_accepts_any_32_byte_value_witness :
    fe256.from_str (hexOfBytes (255 :: List.replicate 31 0) ++ ['.', 'f', 'e']) =
      .ok (beBytesToNat (255 :: List.replicate 31 0)) :=
  from_str_accepts_any_32_byte_value _ (by decide) (by decide)

end ZkAluvm
